import Mathlib

/-!
Shallow embedding of the core of `indexer-sdk-go` (a multi-chain EVM log
indexer) and proofs about it.

Block numbers, which are `uint64` in the Go source, are modelled as `Nat`:
none of the verified code paths depends on 64-bit wraparound (the planner,
the window-hash store and the reorg resolver only ever add small offsets to
realistic block heights), and quantities parsed from hex are explicitly
bounded by `2 ^ 64` where the Go `strconv.ParseUint(_, _, 64)` enforces it.

Go strings are modelled as `List Char` (`Str`), Go `map[uint64]string` as an
association list with unique keys, and the RPC adapter as pure functions
(the claims verified here are about runs in which every RPC call succeeds).
-/

namespace Indexer

/-- Go strings, modelled as lists of characters. -/
abbrev Str := List Char

/-! ## Fetch planner (processor.go, `runChain` lines 193–210)

```go
rs := uint64(chain.opts.RangeSize)
for from := chain.cursor + 1; from <= target; from += rs {
    to := from + rs - 1
    if to > target { to = target }
    jobs <- blockRange{from, to}
}
```
-/

/-- One planned block range, both bounds inclusive. -/
structure BlockRange where
  start : Nat
  stop : Nat
deriving DecidableEq, Repr

/-- The planner loop from `from = f` upward: emits `(f, min (f+rs-1) target)`
and steps `f` by `rs` while `f ≤ target`. -/
def planFrom (target rs : Nat) (f : Nat) : List BlockRange :=
  if h : f ≤ target ∧ 0 < rs then
    ⟨f, min (f + rs - 1) target⟩ :: planFrom target rs (f + rs)
  else
    []
termination_by target + 1 - f
decreasing_by
  omega

/-- The fetch planner: partitions `(cursor, target]` into ranges of size
`rs`, starting at `cursor + 1`. -/
def planRanges (cursor target rs : Nat) : List BlockRange :=
  planFrom target rs (cursor + 1)

lemma planFrom_of_pos {target rs f : Nat} (h : f ≤ target) (hrs : 0 < rs) :
    planFrom target rs f =
      ⟨f, min (f + rs - 1) target⟩ :: planFrom target rs (f + rs) := by
  rw [planFrom]
  exact dif_pos ⟨h, hrs⟩

lemma planFrom_of_stop {target rs f : Nat} (h : ¬(f ≤ target ∧ 0 < rs)) :
    planFrom target rs f = [] := by
  rw [planFrom]
  exact dif_neg h

lemma planFrom_start_ge (target rs f : Nat) :
    ∀ p ∈ planFrom target rs f, f ≤ p.start := by
  induction f using planFrom.induct target rs with
  | case1 f h ih =>
    rw [planFrom_of_pos h.1 h.2]
    simp only [List.mem_cons]
    rintro p (rfl | hp)
    · exact le_refl _
    · have := ih p hp
      omega
  | case2 f h =>
    rw [planFrom_of_stop h]
    intro p hp
    exact absurd hp (List.not_mem_nil p)

lemma planFrom_start_le_stop (target rs f : Nat) :
    ∀ p ∈ planFrom target rs f, p.start ≤ p.stop := by
  induction f using planFrom.induct target rs with
  | case1 f h ih =>
    rw [planFrom_of_pos h.1 h.2]
    simp only [List.mem_cons]
    rintro p (rfl | hp)
    · show f ≤ min (f + rs - 1) target
      omega
    · exact ih p hp
  | case2 f h =>
    rw [planFrom_of_stop h]
    intro p hp
    exact absurd hp (List.not_mem_nil p)

lemma planFrom_pairwise (target rs f : Nat) :
    (planFrom target rs f).Pairwise (fun p q => p.stop < q.start) := by
  induction f using planFrom.induct target rs with
  | case1 f h ih =>
    rw [planFrom_of_pos h.1 h.2]
    refine List.Pairwise.cons ?_ ih
    intro q hq
    have := planFrom_start_ge target rs (f + rs) q hq
    show min (f + rs - 1) target < q.start
    omega
  | case2 f h =>
    rw [planFrom_of_stop h]
    exact List.Pairwise.nil

lemma planFrom_cover (target rs f : Nat) (x : Nat) :
    (∃ p ∈ planFrom target rs f, p.start ≤ x ∧ x ≤ p.stop) ↔
      0 < rs ∧ f ≤ x ∧ x ≤ target := by
  induction f using planFrom.induct target rs with
  | case1 f h ih =>
    rw [planFrom_of_pos h.1 h.2]
    simp only [List.mem_cons]
    constructor
    · rintro ⟨p, rfl | hp, hx1, hx2⟩
      · simp only at hx1 hx2
        omega
      · have := ih.mp ⟨p, hp, hx1, hx2⟩
        omega
    · rintro ⟨hrs, hfx, hxt⟩
      by_cases hc : x ≤ f + rs - 1
      · refine ⟨⟨f, min (f + rs - 1) target⟩, Or.inl rfl, ?_, ?_⟩
        · show f ≤ x
          omega
        · show x ≤ min (f + rs - 1) target
          omega
      · obtain ⟨p, hp, h1, h2⟩ := ih.mpr ⟨hrs, by omega, hxt⟩
        exact ⟨p, Or.inr hp, h1, h2⟩
  | case2 f h =>
    rw [planFrom_of_stop h]
    constructor
    · rintro ⟨p, hp, _⟩
      exact absurd hp (List.not_mem_nil p)
    · rintro ⟨hrs, hfx, hxt⟩
      exact absurd ⟨by omega, hrs⟩ h

lemma planFrom_get (target rs : Nat) (f : Nat) :
    ∀ i (hi : i < (planFrom target rs f).length),
      (planFrom target rs f).get ⟨i, hi⟩ =
        ⟨f + i * rs, min (f + i * rs + rs - 1) target⟩ := by
  induction f using planFrom.induct target rs with
  | case1 f h ih =>
    intro i hi
    rcases i with _ | n
    · have hrw := planFrom_of_pos h.1 h.2
      rw [List.get_of_eq hrw]
      simp [List.get]
    · have hi' : n < (planFrom target rs (f + rs)).length := by
        have := hi
        rw [planFrom_of_pos h.1 h.2] at this
        simpa using this
      have heq : (planFrom target rs f).get ⟨n + 1, hi⟩ =
          (planFrom target rs (f + rs)).get ⟨n, hi'⟩ := by
        have hrw := planFrom_of_pos h.1 h.2
        rw [List.get_of_eq hrw]
        simp [List.get]
      rw [heq, ih n hi']
      have : f + rs + n * rs = f + (n + 1) * rs := by ring
      rw [this]
  | case2 f h =>
    intro i hi
    rw [planFrom_of_stop h] at hi
    exact absurd hi (by simp)

/-- The full functional specification of the planner: the `i`-th emitted
range is `[cursor + 1 + i·rs, min (cursor + 1 + i·rs + rs − 1) target]`;
every range has `start ≤ stop`; ranges are pairwise disjoint (each ends
strictly before the next begins); together they cover exactly `(cursor,
target]`; no range is emitted when `target ≤ cursor`; and a single range
`[cursor+1, target]` is emitted when `rs` exceeds `target − cursor`. -/
def PlannerSpec (cursor target rs : Nat) : Prop :=
  (∀ i (hi : i < (planRanges cursor target rs).length),
    (planRanges cursor target rs).get ⟨i, hi⟩ =
      ⟨cursor + 1 + i * rs, min (cursor + 1 + i * rs + rs - 1) target⟩) ∧
  (∀ p ∈ planRanges cursor target rs, p.start ≤ p.stop) ∧
  (planRanges cursor target rs).Pairwise (fun p q => p.stop < q.start) ∧
  (∀ x, (∃ p ∈ planRanges cursor target rs, p.start ≤ x ∧ x ≤ p.stop) ↔
    cursor < x ∧ x ≤ target) ∧
  (target ≤ cursor → planRanges cursor target rs = []) ∧
  (cursor < target → target - cursor < rs →
    planRanges cursor target rs = [⟨cursor + 1, target⟩])

/-- C1: for every cursor, target and positive range size, the fetch planner
emits ranges `from = cursor+1, cursor+1+rs, …`, `to = min (from+rs-1)
target`, stopping when `from > target`; the ranges are pairwise disjoint,
each has `from ≤ to`, and they cover exactly `(cursor, target]`; when
`target ≤ cursor` nothing is emitted, and when `rs > target − cursor` a
single range `[cursor+1, target]` is emitted. -/
theorem planRanges_correct (cursor target rs : Nat) (hrs : 0 < rs) :
    PlannerSpec cursor target rs := by
  refine ⟨planFrom_get target rs (cursor + 1),
    planFrom_start_le_stop target rs (cursor + 1),
    planFrom_pairwise target rs (cursor + 1), ?_, ?_, ?_⟩
  · intro x
    rw [planRanges, planFrom_cover]
    omega
  · intro hle
    exact planFrom_of_stop (by omega)
  · intro hlt hbig
    have hmin : min (cursor + 1 + rs - 1) target = target := by omega
    rw [planRanges, planFrom_of_pos (by omega) hrs, planFrom_of_stop (by omega), hmin]

/-- Witness for C1: the planner specification holds at the concrete input
`cursor = 5`, `target = 12`, `rs = 3`. -/
theorem planRanges_correct_witness : 0 < 3 ∧ PlannerSpec 5 12 3 :=
  ⟨by decide, planRanges_correct 5 12 3 (by decide)⟩

/-! ## Error classifier (errors/error.go, `IsRetryableError`) -/

/-- The error values the classifier distinguishes: an `HTTPError` with a
status code, an `RPCError` with a JSON-RPC error code, or anything else. -/
inductive IndexerError where
  | httpErr (statusCode : Int) (message : Str)
  | rpcErr (code : Int) (message : Str)
  | otherErr
deriving DecidableEq, Repr

/-- `IsRetryableError` from `errors/error.go`: HTTP status codes
429, 502, 503, 504 and 500, 501, 505, 506, 507, 508, 510, 511 are
retryable, all other HTTP statuses are not; RPC codes in
`[-32099, -32000]` are retryable; everything else is not. -/
def IsRetryableError : IndexerError → Bool
  | .httpErr c _ =>
      c == 429 || c == 502 || c == 503 || c == 504 ||
      c == 500 || c == 501 || c == 505 || c == 506 ||
      c == 507 || c == 508 || c == 510 || c == 511
  | .rpcErr c _ => -32099 ≤ c && c ≤ -32000
  | .otherErr => false

/-- C4 counterexample: HTTP status 509 lies in the 5xx range (500–599),
yet `IsRetryableError` classifies it as non-retryable, contradicting the
claim that every 5xx status is retryable. -/
theorem isRetryableError_509_false :
    (500 : Int) ≤ 509 ∧ (509 : Int) ≤ 599 ∧
      IsRetryableError (.httpErr 509 []) = false := by
  decide

/-- C4 (amended): `IsRetryableError` returns `true` exactly for HTTP errors
whose status code is one of 429, 500, 501, 502, 503, 504, 505, 506, 507,
508, 510, 511 (so HTTP 509 and 512–599 are *not* retryable), `true` for RPC
errors whose code lies in `[-32099, -32000]`, and `false` for every other
error. -/
theorem isRetryableError_characterization :
    (∀ c m, IsRetryableError (.httpErr c m) = true ↔
      (c = 429 ∨ c = 500 ∨ c = 501 ∨ c = 502 ∨ c = 503 ∨ c = 504 ∨
       c = 505 ∨ c = 506 ∨ c = 507 ∨ c = 508 ∨ c = 510 ∨ c = 511)) ∧
    (∀ c m, IsRetryableError (.rpcErr c m) = true ↔
      (-32099 ≤ c ∧ c ≤ -32000)) ∧
    IsRetryableError .otherErr = false := by
  refine ⟨?_, ?_, rfl⟩
  · intro c m
    simp only [IsRetryableError, Bool.or_eq_true, beq_iff_eq]
    tauto
  · intro c m
    simp only [IsRetryableError, Bool.and_eq_true, decide_eq_true_eq]

/-! ## Hex quantity helpers (utils/helpers.go)

```go
func Uint64ToHexQty(n uint64) string {
    if n == 0 { return "0x0" }
    return "0x" + strconv.FormatUint(n, 16)
}
func HexQtyToUint64(s string) (uint64, error) {
    if len(s) >= 2 && (s[0:2] == "0x" || s[0:2] == "0X") {
        return strconv.ParseUint(s[2:], 16, 64)
    }
    return strconv.ParseUint(s, 10, 64)
}
```
-/

/-- The lower-case hex digit for a value `< 16`, computed as `strconv`
does: `'0' + d` for `d < 10` and `'a' + d - 10` above. -/
def hexDigitChar (n : Nat) : Char :=
  if n < 10 then Char.ofNat ('0'.toNat + n) else Char.ofNat ('a'.toNat + n - 10)

/-- The base-16 digits of `n`, least significant first (empty for `0`). -/
def natHexDigitsLE : Nat → List Char
  | 0 => []
  | n + 1 => hexDigitChar ((n + 1) % 16) :: natHexDigitsLE ((n + 1) / 16)
decreasing_by
  exact Nat.div_lt_self (Nat.succ_pos n) (by norm_num)

/-- `strconv.FormatUint(n, 16)`: lower-case hex, most significant digit
first, no leading zeros. -/
def formatHex (n : Nat) : Str := (natHexDigitsLE n).reverse

/-- `Uint64ToHexQty` from `utils/helpers.go`. -/
def Uint64ToHexQty (n : Nat) : Str :=
  if n = 0 then ['0', 'x', '0'] else '0' :: 'x' :: formatHex n

/-- The numeric value of one hex digit, accepting both cases as
`strconv.ParseUint(_, 16, _)` does. -/
def hexDigitVal (c : Char) : Option Nat :=
  if '0' ≤ c ∧ c ≤ '9' then some (c.toNat - '0'.toNat)
  else if 'a' ≤ c ∧ c ≤ 'f' then some (c.toNat - 'a'.toNat + 10)
  else if 'A' ≤ c ∧ c ≤ 'F' then some (c.toNat - 'A'.toNat + 10)
  else none

/-- The numeric value of one decimal digit. -/
def decDigitVal (c : Char) : Option Nat :=
  if '0' ≤ c ∧ c ≤ '9' then some (c.toNat - '0'.toNat) else none

/-- One accumulation step of `strconv.ParseUint`: reject invalid digits and
values that do not fit in 64 bits. -/
def parseStep (base : Nat) (digitVal : Char → Option Nat)
    (acc : Option Nat) (c : Char) : Option Nat :=
  match acc, digitVal c with
  | some a, some d => if a * base + d < 2 ^ 64 then some (a * base + d) else none
  | _, _ => none

/-- `strconv.ParseUint(s, 16, 64)`: error on an empty string, an invalid
digit, or overflow past `2^64 − 1`. -/
def parseUintHex64 (s : Str) : Option Nat :=
  if s = [] then none else s.foldl (parseStep 16 hexDigitVal) (some 0)

/-- `strconv.ParseUint(s, 10, 64)`. -/
def parseUintDec64 (s : Str) : Option Nat :=
  if s = [] then none else s.foldl (parseStep 10 decDigitVal) (some 0)

/-- `HexQtyToUint64` from `utils/helpers.go`. -/
def HexQtyToUint64 (s : Str) : Option Nat :=
  if 2 ≤ s.length ∧ (s.take 2 = ['0', 'x'] ∨ s.take 2 = ['0', 'X']) then
    parseUintHex64 (s.drop 2)
  else
    parseUintDec64 s

lemma natHexDigitsLE_pos {n : Nat} (h : 0 < n) :
    natHexDigitsLE n = hexDigitChar (n % 16) :: natHexDigitsLE (n / 16) := by
  rcases n with _ | m
  · exact absurd h (lt_irrefl 0)
  · rw [natHexDigitsLE]

lemma hexDigitVal_hexDigitChar : ∀ d, d < 16 →
    hexDigitVal (hexDigitChar d) = some d := by
  decide

lemma parse_formatHex (n : Nat) : ∀ acc : Nat,
    acc * 16 ^ (natHexDigitsLE n).length + n < 2 ^ 64 →
      (formatHex n).foldl (parseStep 16 hexDigitVal) (some acc) =
        some (acc * 16 ^ (natHexDigitsLE n).length + n) := by
  induction n using Nat.strong_induction_on with
  | _ n ih =>
    intro acc hacc
    rcases Nat.eq_zero_or_pos n with rfl | hpos
    · simp [formatHex, natHexDigitsLE]
    · have hstep : natHexDigitsLE n =
          hexDigitChar (n % 16) :: natHexDigitsLE (n / 16) := natHexDigitsLE_pos hpos
      have hfmt : formatHex n = formatHex (n / 16) ++ [hexDigitChar (n % 16)] := by
        rw [formatHex, hstep, List.reverse_cons, formatHex]
      have hlen : (natHexDigitsLE n).length = (natHexDigitsLE (n / 16)).length + 1 := by
        rw [hstep, List.length_cons]
      set L := (natHexDigitsLE (n / 16)).length with hL
      have hmid : acc * 16 ^ L + n / 16 < 2 ^ 64 := by
        have h1 : (acc * 16 ^ L + n / 16) * 16 + n % 16 =
            acc * 16 ^ (L + 1) + n := by
          have := Nat.div_add_mod n 16
          ring_nf
          omega
        have h2 : acc * 16 ^ L + n / 16 ≤ acc * 16 ^ (L + 1) + n := by
          nlinarith [Nat.zero_le (acc * 16 ^ L + n / 16), Nat.zero_le (n % 16)]
        rw [hlen] at hacc
        omega
      have hrec := ih (n / 16) (Nat.div_lt_self hpos (by norm_num)) acc hmid
      rw [hfmt, List.foldl_append, hrec]
      have hdig := hexDigitVal_hexDigitChar (n % 16) (Nat.mod_lt n (by norm_num))
      have hval : (acc * 16 ^ L + n / 16) * 16 + n % 16 =
          acc * 16 ^ (L + 1) + n := by
        have h1 : ∀ a : Nat, (a + n / 16) * 16 + n % 16 = a * 16 + n := by
          intro a
          omega
        rw [h1 (acc * 16 ^ L), pow_succ]
        ring
      rw [hlen] at hacc
      simp only [List.foldl_cons, List.foldl_nil, parseStep, hdig]
      rw [hval, if_pos hacc, hlen]

lemma formatHex_ne_nil {n : Nat} (h : 0 < n) : formatHex n ≠ [] := by
  rw [formatHex, natHexDigitsLE_pos h]
  simp

/-- C10: decoding inverts encoding: for every `n < 2^64`,
`HexQtyToUint64 (Uint64ToHexQty n) = some n`; in particular
`Uint64ToHexQty 0 = "0x0"` and it decodes back to `0`. -/
theorem hexQty_roundTrip (n : Nat) (hn : n < 2 ^ 64) :
    HexQtyToUint64 (Uint64ToHexQty n) = some n ∧
      Uint64ToHexQty 0 = ['0', 'x', '0'] ∧
      HexQtyToUint64 (Uint64ToHexQty 0) = some 0 := by
  refine ⟨?_, rfl, by decide⟩
  rcases Nat.eq_zero_or_pos n with rfl | hpos
  · decide
  · have hne : Uint64ToHexQty n = '0' :: 'x' :: formatHex n := by
      rw [Uint64ToHexQty, if_neg (by omega)]
    rw [hne, HexQtyToUint64, if_pos (by simp)]
    simp only [List.drop_succ_cons, List.drop_zero]
    rw [parseUintHex64, if_neg (formatHex_ne_nil hpos)]
    have := parse_formatHex n 0 (by simpa using hn)
    simpa using this

/-- Witness for C10: the round trip at the concrete value `255 < 2^64`
(`"0xff"`). -/
theorem hexQty_roundTrip_witness :
    255 < 2 ^ 64 ∧
      (HexQtyToUint64 (Uint64ToHexQty 255) = some 255 ∧
        Uint64ToHexQty 0 = ['0', 'x', '0'] ∧
        HexQtyToUint64 (Uint64ToHexQty 0) = some 0) :=
  ⟨by norm_num, hexQty_roundTrip 255 (by norm_num)⟩

/-! ## Topic canonicalizer (utils/helpers.go)

```go
func FunctionSignatureToTopic(signature string) string {
    cleanSig := strings.ReplaceAll(signature, " ", "")
    hash := Keccak256([]byte(cleanSig))
    return "0x" + hex.EncodeToString(hash)
}
func ConvertToTopics(signatures []string) []string { ... }
```

`Keccak256` comes from the external library `golang.org/x/crypto/sha3`
(not part of this repository), so it is taken as a parameter; the only
fact the proofs use about it is that its digest is 32 bytes long, which
holds for the real Keccak-256. -/

/-- `hex.EncodeToString`: two lower-case hex digits per byte. -/
def hexEncode (bs : List Nat) : Str :=
  bs.flatMap (fun b => [hexDigitChar (b / 16), hexDigitChar (b % 16)])

/-- `strings.ReplaceAll(s, " ", "")`. -/
def removeSpaces (s : Str) : Str := s.filter (fun c => c ≠ ' ')

/-- `strings.HasPrefix(s, "0x")`. -/
def hasPrefix0x (s : Str) : Bool := s.take 2 == ['0', 'x']

/-- `FunctionSignatureToTopic` from `utils/helpers.go`, parameterized by
the Keccak-256 digest function. -/
def FunctionSignatureToTopic (keccak256 : Str → List Nat) (signature : Str) : Str :=
  '0' :: 'x' :: hexEncode (keccak256 (removeSpaces signature))

/-- The per-element branch of `ConvertToTopics`. -/
def convertTopic (keccak256 : Str → List Nat) (signature : Str) : Str :=
  if signature.length = 66 ∧ hasPrefix0x signature then signature
  else if signature.length = 64 ∧ ¬ hasPrefix0x signature then
    '0' :: 'x' :: signature
  else FunctionSignatureToTopic keccak256 signature

/-- `ConvertToTopics` from `utils/helpers.go`. -/
def ConvertToTopics (keccak256 : Str → List Nat) (signatures : List Str) : List Str :=
  signatures.map (convertTopic keccak256)

lemma hexEncode_length (bs : List Nat) : (hexEncode bs).length = 2 * bs.length := by
  induction bs with
  | nil => rfl
  | cons b rest ih =>
    simp only [hexEncode, List.flatMap_cons] at ih ⊢
    simp [ih]
    omega

lemma convertTopic_of_canonical (keccak256 : Str → List Nat) (t : Str)
    (h1 : t.length = 66) (h2 : hasPrefix0x t) :
    convertTopic keccak256 t = t := by
  rw [convertTopic, if_pos ⟨h1, h2⟩]

lemma convertTopic_fixed (keccak256 : Str → List Nat)
    (hk : ∀ s, (keccak256 s).length = 32) (s : Str) :
    convertTopic keccak256 (convertTopic keccak256 s) = convertTopic keccak256 s := by
  by_cases h1 : s.length = 66 ∧ hasPrefix0x s
  · have hs : convertTopic keccak256 s = s := convertTopic_of_canonical _ _ h1.1 h1.2
    rw [hs]
    exact hs
  · by_cases h2 : s.length = 64 ∧ ¬ hasPrefix0x s
    · have hs : convertTopic keccak256 s = '0' :: 'x' :: s := by
        rw [convertTopic, if_neg h1, if_pos h2]
      rw [hs]
      exact convertTopic_of_canonical _ _ (by simp [h2.1]) (by simp [hasPrefix0x])
    · have hs : convertTopic keccak256 s = FunctionSignatureToTopic keccak256 s := by
        rw [convertTopic, if_neg h1, if_neg h2]
      rw [hs]
      exact convertTopic_of_canonical _ _
        (by simp [FunctionSignatureToTopic, hexEncode_length, hk])
        (by simp [hasPrefix0x, FunctionSignatureToTopic])

/-- C9: for any digest function producing 32-byte hashes (as Keccak-256
does), `ConvertToTopics` is idempotent, preserves the length of its input,
and acts elementwise in position. -/
theorem convertToTopics_idempotent (keccak256 : Str → List Nat)
    (hk : ∀ s, (keccak256 s).length = 32) (signatures : List Str) :
    ConvertToTopics keccak256 (ConvertToTopics keccak256 signatures) =
        ConvertToTopics keccak256 signatures ∧
      (ConvertToTopics keccak256 signatures).length = signatures.length ∧
      ∀ i, (ConvertToTopics keccak256 signatures).get? i =
        (signatures.get? i).map (convertTopic keccak256) := by
  refine ⟨?_, List.length_map _ _, ?_⟩
  · rw [ConvertToTopics, ConvertToTopics, List.map_map]
    apply List.map_congr_left
    intro s _
    exact convertTopic_fixed keccak256 hk s
  · intro i
    exact List.get?_map _ _ _

/-- Witness for C9: idempotence at a concrete digest function (constantly
32 zero bytes) and a concrete signature list. -/
theorem convertToTopics_idempotent_witness :
    (∀ s, ((fun _ : Str => List.replicate 32 0) s).length = 32) ∧
      (ConvertToTopics (fun _ => List.replicate 32 0)
          (ConvertToTopics (fun _ => List.replicate 32 0) [['a', 'b'], []]) =
        ConvertToTopics (fun _ => List.replicate 32 0) [['a', 'b'], []] ∧
      (ConvertToTopics (fun _ => List.replicate 32 0) [['a', 'b'], []]).length =
        ([['a', 'b'], []] : List Str).length ∧
      ∀ i, (ConvertToTopics (fun _ => List.replicate 32 0) [['a', 'b'], []]).get? i =
        (([['a', 'b'], []] : List Str).get? i).map
          (convertTopic (fun _ => List.replicate 32 0))) :=
  ⟨fun _ => by simp,
    convertToTopics_idempotent (fun _ => List.replicate 32 0)
      (fun _ => by simp) [['a', 'b'], []]⟩

/-! ## Data model (types/types.go, processor.go `chainState`)

Go maps with `uint64` keys are modelled as association lists whose keys
the operations keep unique, so that the map's size is the list's length. -/

/-- Go `map[uint64]β`. -/
abbrev AList64 (β : Type) := List (Nat × β)

/-- Go map indexing `m[k]` (the `, ok` form is `Option`). -/
def mapLookup {β : Type} : AList64 β → Nat → Option β
  | [], _ => none
  | (k', v) :: rest, k => if k' = k then some v else mapLookup rest k

/-- Go map assignment `m[k] = v`: overwrite in place if the key exists,
otherwise add the binding. -/
def mapInsert {β : Type} (m : AList64 β) (k : Nat) (v : β) : AList64 β :=
  if (mapLookup m k).isSome then
    m.map (fun p => if p.1 = k then (k, v) else p)
  else m ++ [(k, v)]

/-- Go `delete(m, k)`. -/
def mapErase {β : Type} (m : AList64 β) (k : Nat) : AList64 β :=
  m.filter (fun p => p.1 ≠ k)

/-- The keys of the map. -/
def mapKeys {β : Type} (m : AList64 β) : List Nat := m.map Prod.fst

/-- Go `len(m)`. -/
def mapSize {β : Type} (m : AList64 β) : Nat := m.length

/-- A block header as returned by `GetBlock` (types/types.go `Block`). -/
structure Block where
  number : Str
  hash : Str
  parentHash : Str
  timestamp : Str
deriving DecidableEq, Repr

/-- The Go `Log.Topics` field is `[]any`; a topic is either a string or
some non-string JSON value (the filter only matches strings). -/
inductive TopicVal where
  | str (s : Str)
  | nonString
deriving DecidableEq, Repr

/-- A raw log (types/types.go `Log`). -/
structure Log where
  address : Str
  topics : List TopicVal
  data : Str
  blockNumber : Str
  transactionHash : Str
  transactionIndex : Str
  blockHash : Str
  logIndex : Str
  removed : Bool
deriving DecidableEq, Repr

/-- A transaction receipt (types/types.go `Receipt`); only the fields the
processor reads are carried. -/
structure Receipt where
  blockHash : Str
  blockNumber : Str
  logs : List Log
  status : Str
deriving DecidableEq, Repr

/-- Per-chain mutable state (processor.go `chainState`); the fields of
`opts` that the verified code paths read (`RangeSize`, `Topics`) are
inlined as `optsRangeSize` and `optsTopics`. -/
structure ChainState where
  cursor : Nat
  windowOrder : List Nat
  storedWindowHash : AList64 Str
  storedWindowHashCap : Nat
  hardFallbackBlocks : Nat
  /-- canonicalized topics (`chain.topics`) -/
  topics : List Str
  /-- the raw configured topics (`chain.opts.Topics`) -/
  optsTopics : List Str
  /-- `chain.opts.RangeSize` -/
  optsRangeSize : Nat
deriving DecidableEq, Repr

/-! ## Window-hash store (processor.go `storeWindowHash`, `dropWindowHash`)

```go
func (p *Processor) storeWindowHash(to uint64, blockHash string, chain *chainState) {
    _, exist := chain.storedWindowHash[to]
    if exist {
        chain.storedWindowHash[to] = blockHash
    } else {
        l := len(chain.windowOrder)
        if uint64(l) >= chain.storedWindowHashCap {
            old := chain.windowOrder[0]
            delete(chain.storedWindowHash, old)
            chain.windowOrder = chain.windowOrder[1:]
        }
        chain.storedWindowHash[to] = blockHash
        chain.windowOrder = append(chain.windowOrder, to)
    }
}

func (p *Processor) dropWindowHash(after uint64, chain *chainState) {
    i := len(chain.windowOrder) - 1
    for i >= 0 && chain.windowOrder[i] > after {
        delete(chain.storedWindowHash, chain.windowOrder[i])
        i--
    }
    chain.windowOrder = chain.windowOrder[:i+1]
}
```
-/

def storeWindowHash («to» : Nat) (blockHash : Str) (s : ChainState) : ChainState :=
  if (mapLookup s.storedWindowHash «to»).isSome then
    { s with storedWindowHash := mapInsert s.storedWindowHash «to» blockHash }
  else
    let s1 :=
      if s.storedWindowHashCap ≤ s.windowOrder.length then
        match s.windowOrder with
        | [] => s
        | old :: rest =>
          { s with storedWindowHash := mapErase s.storedWindowHash old,
                   windowOrder := rest }
      else s
    { s1 with storedWindowHash := mapInsert s1.storedWindowHash «to» blockHash,
              windowOrder := s1.windowOrder ++ [«to»] }

/-- `dropWindowHash`: walk the tail of `windowOrder` backwards while the
entry exceeds `after`, deleting those keys, then truncate the order list.
The deleted entries are exactly the longest suffix of `windowOrder` whose
elements all exceed `after`, i.e. `takeWhile (after < ·)` of the reversed
order. -/
def dropWindowHash (after : Nat) (s : ChainState) : ChainState :=
  let dropped := s.windowOrder.reverse.takeWhile (fun k => after < k)
  { s with
    windowOrder := (s.windowOrder.reverse.dropWhile (fun k => after < k)).reverse,
    storedWindowHash :=
      dropped.foldl (fun m k => mapErase m k) s.storedWindowHash }

lemma mapLookup_isSome_iff {β : Type} (m : AList64 β) (k : Nat) :
    (mapLookup m k).isSome ↔ k ∈ mapKeys m := by
  induction m with
  | nil => simp [mapLookup, mapKeys]
  | cons p rest ih =>
    rcases p with ⟨k', v⟩
    by_cases h : k' = k
    · subst h
      simp [mapLookup, mapKeys]
    · simp [mapLookup, mapKeys, h, Ne.symm h] at ih ⊢
      exact ih

lemma mapLookup_eq_none_iff {β : Type} (m : AList64 β) (k : Nat) :
    mapLookup m k = none ↔ k ∉ mapKeys m := by
  rw [← mapLookup_isSome_iff, Option.not_isSome_iff_eq_none]

lemma mapKeys_overwrite {β : Type} (m : AList64 β) (k : Nat) (v : β) :
    mapKeys (m.map (fun p => if p.1 = k then (k, v) else p)) = mapKeys m := by
  induction m with
  | nil => rfl
  | cons p rest ih =>
    simp only [mapKeys, List.map_cons, List.map_map] at ih ⊢
    by_cases h : p.1 = k
    · simp [h, ih]
    · simp [h, ih]

lemma mapKeys_erase_sublist {β : Type} (m : AList64 β) (k : Nat) :
    (mapKeys (mapErase m k)).Sublist (mapKeys m) :=
  (List.filter_sublist m).map Prod.fst

lemma mapKeys_erase_nodup {β : Type} (m : AList64 β) (k : Nat)
    (h : (mapKeys m).Nodup) : (mapKeys (mapErase m k)).Nodup :=
  h.sublist (mapKeys_erase_sublist m k)

lemma mapKeys_cons {β : Type} (p : Nat × β) (l : AList64 β) :
    mapKeys (p :: l) = p.1 :: mapKeys l := rfl

lemma mapErase_cons_self {β : Type} {p : Nat × β} {k : Nat} (h : p.1 = k)
    (rest : AList64 β) : mapErase (p :: rest) k = mapErase rest k := by
  simp [mapErase, List.filter_cons, h]

lemma mapErase_cons_ne {β : Type} {p : Nat × β} {k : Nat} (h : ¬p.1 = k)
    (rest : AList64 β) : mapErase (p :: rest) k = p :: mapErase rest k := by
  simp [mapErase, List.filter_cons, h]

lemma mem_mapKeys_erase {β : Type} (m : AList64 β) (k x : Nat) :
    x ∈ mapKeys (mapErase m k) ↔ x ≠ k ∧ x ∈ mapKeys m := by
  induction m with
  | nil => simp [mapErase, mapKeys]
  | cons p rest ih =>
    by_cases h : p.1 = k
    · rw [mapErase_cons_self h, ih, mapKeys_cons, List.mem_cons]
      constructor
      · rintro ⟨hne, hm⟩
        exact ⟨hne, Or.inr hm⟩
      · rintro ⟨hne, rfl | hm⟩
        · exact absurd h hne
        · exact ⟨hne, hm⟩
    · rw [mapErase_cons_ne h, mapKeys_cons, List.mem_cons, ih,
        mapKeys_cons, List.mem_cons]
      constructor
      · rintro (rfl | ⟨hne, hm⟩)
        · exact ⟨h, Or.inl rfl⟩
        · exact ⟨hne, Or.inr hm⟩
      · rintro ⟨hne, rfl | hm⟩
        · exact Or.inl rfl
        · exact Or.inr ⟨hne, hm⟩

lemma mapErase_of_not_mem {β : Type} {m : AList64 β} {k : Nat}
    (h : k ∉ mapKeys m) : mapErase m k = m := by
  induction m with
  | nil => rfl
  | cons p rest ih =>
    rw [mapKeys_cons, List.mem_cons] at h
    push_neg at h
    have h1 : ¬p.1 = k := fun he => h.1 he.symm
    rw [mapErase_cons_ne h1, ih h.2]

lemma mapErase_length_of_mem {β : Type} {m : AList64 β} {k : Nat}
    (hk : k ∈ mapKeys m) (hnd : (mapKeys m).Nodup) :
    (mapErase m k).length = m.length - 1 := by
  induction m with
  | nil => simp [mapKeys] at hk
  | cons p rest ih =>
    rw [mapKeys_cons, List.nodup_cons] at hnd
    by_cases h : p.1 = k
    · have hkr : k ∉ mapKeys rest := h ▸ hnd.1
      rw [mapErase_cons_self h, mapErase_of_not_mem hkr]
      simp
    · rw [mapKeys_cons, List.mem_cons] at hk
      rcases hk with rfl | hkr
      · exact absurd rfl h
      · have hpos : 0 < rest.length := by
          have h0 : 0 < (mapKeys rest).length := List.length_pos_of_mem hkr
          simpa [mapKeys] using h0
        rw [mapErase_cons_ne h]
        simp only [List.length_cons]
        rw [ih hkr hnd.2]
        omega

lemma mapKeys_append {β : Type} (m1 m2 : AList64 β) :
    mapKeys (m1 ++ m2) = mapKeys m1 ++ mapKeys m2 := by
  simp [mapKeys]

lemma mapSize_eq_keys_length {β : Type} (m : AList64 β) :
    mapSize m = (mapKeys m).length := by
  simp [mapSize, mapKeys]

lemma mapKeys_foldl_erase_mem {β : Type} (ds : List Nat) :
    ∀ (m : AList64 β) (k : Nat),
      k ∈ mapKeys (ds.foldl (fun acc d => mapErase acc d) m) ↔
        k ∈ mapKeys m ∧ k ∉ ds := by
  induction ds with
  | nil => simp
  | cons d ds ih =>
    intro m k
    simp only [List.foldl_cons, ih (mapErase m d) k, mem_mapKeys_erase,
      List.mem_cons]
    tauto

lemma mapKeys_foldl_erase_nodup {β : Type} (ds : List Nat) :
    ∀ (m : AList64 β), (mapKeys m).Nodup →
      (mapKeys (ds.foldl (fun acc d => mapErase acc d) m)).Nodup := by
  induction ds with
  | nil => exact fun m h => h
  | cons d ds ih =>
    intro m hm
    exact ih (mapErase m d) (mapKeys_erase_nodup m d hm)

/-- The window-store invariant of C3, on explicit data: `order` lists
exactly the keys of `m` (each exactly once), its length is the map's size,
and the size is bounded by `cap`. -/
def WindowInvOn (order : List Nat) (m : AList64 Str) (cap : Nat) : Prop :=
  (mapKeys m).Nodup ∧
  order.Nodup ∧
  (∀ k ∈ order, k ∈ mapKeys m) ∧
  (∀ k ∈ mapKeys m, k ∈ order) ∧
  order.length = mapSize m ∧
  mapSize m ≤ cap

/-- The window-store invariant of a chain state. -/
def WindowInv (s : ChainState) : Prop :=
  WindowInvOn s.windowOrder s.storedWindowHash s.storedWindowHashCap

lemma storeWindowHash_inv («to» : Nat) (hash : Str) (s : ChainState)
    (hcap : 1 ≤ s.storedWindowHashCap) (hinv : WindowInv s) :
    WindowInv (storeWindowHash «to» hash s) := by
  obtain ⟨hkn, hon, hmem1, hmem2, hlen, hsz⟩ := hinv
  have hmem : ∀ k, k ∈ s.windowOrder ↔ k ∈ mapKeys s.storedWindowHash :=
    fun k => ⟨hmem1 k, hmem2 k⟩
  clear hmem1 hmem2
  by_cases hex : (mapLookup s.storedWindowHash «to»).isSome
  · rw [storeWindowHash, if_pos hex, mapInsert, if_pos hex]
    show WindowInvOn s.windowOrder
      (s.storedWindowHash.map (fun p => if p.1 = «to» then («to», hash) else p))
      s.storedWindowHashCap
    refine ⟨?_, hon, ?_, ?_, ?_, ?_⟩
    · rw [mapKeys_overwrite]
      exact hkn
    · intro k hk
      rw [mapKeys_overwrite]
      exact (hmem k).mp hk
    · intro k hk
      rw [mapKeys_overwrite] at hk
      exact (hmem k).mpr hk
    · simpa [mapSize] using hlen
    · simpa [mapSize] using hsz
  · have hto : «to» ∉ mapKeys s.storedWindowHash := by
      rw [← mapLookup_isSome_iff]
      exact hex
    by_cases hfull : s.storedWindowHashCap ≤ s.windowOrder.length
    · -- eviction branch: the FIFO head `old` is removed first
      rcases horder : s.windowOrder with _ | ⟨old, rest⟩
      · exfalso
        rw [horder] at hfull
        simp at hfull
        omega
      · rw [horder] at hon hmem hlen hfull
        have hold_mem : old ∈ mapKeys s.storedWindowHash :=
          (hmem old).mp (List.mem_cons_self old rest)
        have hold_rest : old ∉ rest := (List.nodup_cons.mp hon).1
        have hrest_nodup : rest.Nodup := (List.nodup_cons.mp hon).2
        have hmlen : 1 ≤ s.storedWindowHash.length := by
          have : 0 < (mapKeys s.storedWindowHash).length :=
            List.length_pos_of_mem hold_mem
          simpa [mapKeys] using this
        have hto1 : ¬((mapLookup (mapErase s.storedWindowHash old) «to»).isSome = true) := by
          rw [mapLookup_isSome_iff, mem_mapKeys_erase]
          tauto
        rw [storeWindowHash, if_neg hex, horder, if_pos hfull]
        show WindowInvOn (rest ++ [«to»])
          (mapInsert (mapErase s.storedWindowHash old) «to» hash)
          s.storedWindowHashCap
        rw [mapInsert, if_neg hto1]
        have hmem_rest : ∀ k, k ∈ rest ↔ k ≠ old ∧ k ∈ mapKeys s.storedWindowHash := by
          intro k
          constructor
          · intro hk
            exact ⟨fun he => hold_rest (he ▸ hk),
              (hmem k).mp (List.mem_cons_of_mem old hk)⟩
          · rintro ⟨hne, hk⟩
            rcases List.mem_cons.mp ((hmem k).mpr hk) with rfl | hr
            · exact absurd rfl hne
            · exact hr
        have hkeys' : mapKeys (mapErase s.storedWindowHash old ++ [(«to», hash)]) =
            mapKeys (mapErase s.storedWindowHash old) ++ [«to»] := by
          rw [mapKeys_append]
          rfl
        have hiff : ∀ k, k ∈ rest ++ [«to»] ↔
            k ∈ mapKeys (mapErase s.storedWindowHash old ++ [(«to», hash)]) := by
          intro k
          rw [hkeys']
          simp only [List.mem_append, List.mem_singleton, mem_mapKeys_erase,
            hmem_rest k]
        refine ⟨?_, ?_, fun k hk => (hiff k).mp hk,
          fun k hk => (hiff k).mpr hk, ?_, ?_⟩
        · rw [hkeys']
          apply List.Nodup.append (mapKeys_erase_nodup _ _ hkn) (List.nodup_singleton _)
          intro a ha hb
          simp only [List.mem_singleton] at hb
          subst hb
          exact hto ((mem_mapKeys_erase _ _ _).mp ha).2
        · apply List.Nodup.append hrest_nodup (List.nodup_singleton _)
          intro a ha hb
          simp only [List.mem_singleton] at hb
          subst hb
          exact hto ((hmem_rest a).mp ha).2
        · have herase : (mapErase s.storedWindowHash old).length =
              s.storedWindowHash.length - 1 :=
            mapErase_length_of_mem hold_mem hkn
          simp only [List.length_append, List.length_cons, List.length_nil,
            mapSize, mapSize_eq_keys_length] at hlen ⊢
          omega
        · have herase : (mapErase s.storedWindowHash old).length =
              s.storedWindowHash.length - 1 :=
            mapErase_length_of_mem hold_mem hkn
          simp only [List.length_append, List.length_cons, List.length_nil,
            mapSize] at hlen hsz ⊢
          omega
    · -- no eviction: the new binding is appended
      rw [storeWindowHash, if_neg hex, if_neg hfull]
      show WindowInvOn (s.windowOrder ++ [«to»])
        (mapInsert s.storedWindowHash «to» hash) s.storedWindowHashCap
      rw [mapInsert, if_neg hex]
      have hkeys' : mapKeys (s.storedWindowHash ++ [(«to», hash)]) =
          mapKeys s.storedWindowHash ++ [«to»] := by
        rw [mapKeys_append]
        rfl
      have hiff : ∀ k, k ∈ s.windowOrder ++ [«to»] ↔
          k ∈ mapKeys (s.storedWindowHash ++ [(«to», hash)]) := by
        intro k
        rw [hkeys']
        simp only [List.mem_append, List.mem_singleton, hmem k]
      refine ⟨?_, ?_, fun k hk => (hiff k).mp hk,
        fun k hk => (hiff k).mpr hk, ?_, ?_⟩
      · rw [hkeys']
        apply List.Nodup.append hkn (List.nodup_singleton _)
        intro a ha hb
        simp only [List.mem_singleton] at hb
        subst hb
        exact hto ha
      · apply List.Nodup.append hon (List.nodup_singleton _)
        intro a ha hb
        simp only [List.mem_singleton] at hb
        subst hb
        exact hto ((hmem a).mp ha)
      · simp only [List.length_append, List.length_cons, List.length_nil,
          mapSize] at hlen ⊢
        omega
      · simp only [List.length_append, List.length_cons, List.length_nil,
          mapSize] at hlen hsz ⊢
        omega


lemma foldl_erase_sublist {β : Type} (ds : List Nat) :
    ∀ m : AList64 β, (ds.foldl (fun acc d => mapErase acc d) m).Sublist m := by
  induction ds with
  | nil => exact fun m => List.Sublist.refl m
  | cons d ds ih =>
    intro m
    exact (ih (mapErase m d)).trans (List.filter_sublist m)

lemma dropWindowHash_inv (after : Nat) (s : ChainState) (hinv : WindowInv s) :
    WindowInv (dropWindowHash after s) := by
  obtain ⟨hkn, hon, hmem1, hmem2, hlen, hsz⟩ := hinv
  have hmem : ∀ k, k ∈ s.windowOrder ↔ k ∈ mapKeys s.storedWindowHash :=
    fun k => ⟨hmem1 k, hmem2 k⟩
  show WindowInvOn
    ((s.windowOrder.reverse.dropWhile (fun k => after < k)).reverse)
    ((s.windowOrder.reverse.takeWhile (fun k => after < k)).foldl
      (fun m k => mapErase m k) s.storedWindowHash)
    s.storedWindowHashCap
  have hsplit : (s.windowOrder.reverse.takeWhile (fun k => after < k)) ++
      (s.windowOrder.reverse.dropWhile (fun k => after < k)) =
        s.windowOrder.reverse := List.takeWhile_append_dropWhile _ _
  have hrev_nodup : s.windowOrder.reverse.Nodup := List.nodup_reverse.mpr hon
  rw [← hsplit] at hrev_nodup
  obtain ⟨hnd_drop, hnd_keep, hdisj⟩ := List.nodup_append.mp hrev_nodup
  have hm' := mapKeys_foldl_erase_mem
    (s.windowOrder.reverse.takeWhile (fun k => after < k)) s.storedWindowHash
  have hiff : ∀ k,
      k ∈ (s.windowOrder.reverse.dropWhile (fun k => after < k)).reverse ↔
        k ∈ mapKeys ((s.windowOrder.reverse.takeWhile (fun k => after < k)).foldl
          (fun m k => mapErase m k) s.storedWindowHash) := by
    intro k
    rw [List.mem_reverse, hm' k]
    constructor
    · intro hk
      have hko : k ∈ s.windowOrder := by
        rw [← List.mem_reverse, ← hsplit]
        exact List.mem_append_right _ hk
      exact ⟨(hmem k).mp hko, fun hd => hdisj hd hk⟩
    · rintro ⟨hkm, hkd⟩
      have hko : k ∈ s.windowOrder.reverse := List.mem_reverse.mpr ((hmem k).mpr hkm)
      rw [← hsplit, List.mem_append] at hko
      rcases hko with hd | hk
      · exact absurd hd hkd
      · exact hk
  have hnd_keep' : ((s.windowOrder.reverse.dropWhile (fun k => after < k)).reverse).Nodup :=
    List.nodup_reverse.mpr hnd_keep
  have hnd_map :
      (mapKeys ((s.windowOrder.reverse.takeWhile (fun k => after < k)).foldl
        (fun m k => mapErase m k) s.storedWindowHash)).Nodup :=
    mapKeys_foldl_erase_nodup _ s.storedWindowHash hkn
  have hperm :
      ((s.windowOrder.reverse.dropWhile (fun k => after < k)).reverse).Perm
        (mapKeys ((s.windowOrder.reverse.takeWhile (fun k => after < k)).foldl
          (fun m k => mapErase m k) s.storedWindowHash)) := by
    apply List.perm_of_nodup_nodup_toFinset_eq hnd_keep' hnd_map
    apply Finset.ext
    intro a
    simp only [List.mem_toFinset]
    exact hiff a
  refine ⟨hnd_map, hnd_keep', fun k hk => (hiff k).mp hk,
    fun k hk => (hiff k).mpr hk, ?_, ?_⟩
  · rw [hperm.length_eq, mapSize_eq_keys_length]
  · calc mapSize ((s.windowOrder.reverse.takeWhile (fun k => after < k)).foldl
          (fun m k => mapErase m k) s.storedWindowHash)
        ≤ mapSize s.storedWindowHash :=
          List.Sublist.length_le (foldl_erase_sublist _ s.storedWindowHash)
      _ ≤ s.storedWindowHashCap := hsz

lemma storeWindowHash_cap («to» : Nat) (hash : Str) (s : ChainState) :
    (storeWindowHash «to» hash s).storedWindowHashCap = s.storedWindowHashCap := by
  rw [storeWindowHash]
  by_cases hex : (mapLookup s.storedWindowHash «to»).isSome
  · rw [if_pos hex]
  · rw [if_neg hex]
    by_cases hfull : s.storedWindowHashCap ≤ s.windowOrder.length
    · rw [if_pos hfull]
      rcases horder : s.windowOrder with _ | ⟨old, rest⟩ <;> rfl
    · rw [if_neg hfull]

instance (order : List Nat) (m : AList64 Str) (cap : Nat) :
    Decidable (WindowInvOn order m cap) := by
  unfold WindowInvOn
  infer_instance

instance (s : ChainState) : Decidable (WindowInv s) := by
  unfold WindowInv
  infer_instance

/-- C3: for every chain state with `storedWindowHashCap ≥ 1` satisfying the
window-store invariant (`windowOrder` holds exactly the keys of
`storedWindowHash`, its length equals the map's size, and the size is at
most the cap), every `storeWindowHash` call and every `dropWindowHash` call
preserves the invariant, and immediately after any `storeWindowHash` call
the number of stored entries is at most `storedWindowHashCap`. -/
theorem windowStore_invariants (s : ChainState)
    (hcap : 1 ≤ s.storedWindowHashCap) (hinv : WindowInv s) :
    (∀ «to» hash, WindowInv (storeWindowHash «to» hash s) ∧
      mapSize (storeWindowHash «to» hash s).storedWindowHash ≤
        s.storedWindowHashCap) ∧
    (∀ after, WindowInv (dropWindowHash after s)) := by
  constructor
  · intro t h
    have h1 := storeWindowHash_inv t h s hcap hinv
    refine ⟨h1, ?_⟩
    have h2 := h1.2.2.2.2.2
    rw [storeWindowHash_cap t h s] at h2
    exact h2
  · intro a
    exact dropWindowHash_inv a s hinv


/-- A concrete well-formed chain state used to witness C3. -/
def c3State : ChainState :=
  { cursor := 2, windowOrder := [1, 2],
    storedWindowHash := [(1, ['a']), (2, ['b'])],
    storedWindowHashCap := 2, hardFallbackBlocks := 1000,
    topics := [], optsTopics := [], optsRangeSize := 1 }

/-- Witness for C3 at the concrete state `c3State`. -/
theorem windowStore_invariants_witness :
    1 ≤ c3State.storedWindowHashCap ∧ WindowInv c3State ∧
      ((∀ «to» hash, WindowInv (storeWindowHash «to» hash c3State) ∧
        mapSize (storeWindowHash «to» hash c3State).storedWindowHash ≤
          c3State.storedWindowHashCap) ∧
      (∀ after, WindowInv (dropWindowHash after c3State))) :=
  ⟨by decide, by decide, windowStore_invariants c3State (by decide) (by decide)⟩


/-! ## Reorg resolver (processor.go `handleReorg`, lines 397–433)

```go
func (p *Processor) handleReorg(ctx context.Context, chain *chainState) uint64 {
    ancestor := chain.cursor
    for i := uint64(0); i < chain.storedWindowHashCap; i++ {
        fallback := chain.cursor
        if fallback > chain.hardFallbackBlocks { fallback -= chain.hardFallbackBlocks } else { fallback = 0 }
        windowHeadBlock, err := chain.chainInfo.RPC.GetBlock(ctx, utils.Uint64ToHexQty(ancestor + 1))
        if err != nil { return fallback }
        if windowHeadBlock.ParentHash == chain.storedWindowHash[ancestor] {
            p.dropWindowHash(ancestor, chain)
            return ancestor
        }
        if ancestor < uint64(chain.opts.RangeSize) { ancestor = 0; break }
        ancestor -= uint64(chain.opts.RangeSize)
        // ctx.Done check
    }
    fallback := ... (as above)
    p.dropWindowHash(fallback, chain)
    return fallback
}
```

The run modelled here is uncancelled and every `GetBlock` succeeds, so the
RPC adapter is a pure function `g : Nat → Block`. Go's `m[k]` on a missing
key yields the zero value `""`, hence the `getD []`. -/

/-- The fallback computation of `handleReorg`. -/
def hardFallbackValue (s : ChainState) : Nat :=
  if s.hardFallbackBlocks < s.cursor then s.cursor - s.hardFallbackBlocks else 0

/-- The ancestor-search loop of `handleReorg`; the fuel is the iteration
bound `storedWindowHashCap`. Returns the mutated state and the new cursor
value. -/
def reorgLoop (g : Nat → Block) (s : ChainState) : Nat → Nat → ChainState × Nat
  | _, 0 => (dropWindowHash (hardFallbackValue s) s, hardFallbackValue s)
  | ancestor, fuel + 1 =>
    if (g (ancestor + 1)).parentHash =
        (mapLookup s.storedWindowHash ancestor).getD [] then
      (dropWindowHash ancestor s, ancestor)
    else if ancestor < s.optsRangeSize then
      (dropWindowHash (hardFallbackValue s) s, hardFallbackValue s)
    else
      reorgLoop g s (ancestor - s.optsRangeSize) fuel

/-- `handleReorg` (uncancelled, all fetches succeeding). -/
def handleReorg (g : Nat → Block) (s : ChainState) : ChainState × Nat :=
  reorgLoop g s s.cursor s.storedWindowHashCap

lemma hardFallbackValue_eq (s : ChainState) :
    hardFallbackValue s = s.cursor - s.hardFallbackBlocks := by
  rw [hardFallbackValue]
  split <;> omega

lemma reorgLoop_cases (g : Nat → Block) (s : ChainState) :
    ∀ fuel ancestor,
      (∃ a, reorgLoop g s ancestor fuel = (dropWindowHash a s, a) ∧
        (g (a + 1)).parentHash = (mapLookup s.storedWindowHash a).getD []) ∨
      reorgLoop g s ancestor fuel =
        (dropWindowHash (hardFallbackValue s) s, hardFallbackValue s) := by
  intro fuel
  induction fuel with
  | zero =>
    intro ancestor
    exact Or.inr rfl
  | succ n ih =>
    intro ancestor
    rw [reorgLoop]
    by_cases h1 : (g (ancestor + 1)).parentHash =
        (mapLookup s.storedWindowHash ancestor).getD []
    · rw [if_pos h1]
      exact Or.inl ⟨ancestor, rfl, h1⟩
    · rw [if_neg h1]
      by_cases h2 : ancestor < s.optsRangeSize
      · rw [if_pos h2]
        exact Or.inr rfl
      · rw [if_neg h2]
        exact ih _

lemma mem_takeWhile_of_sorted (after : Nat) :
    ∀ l : List Nat, l.Pairwise (fun a b => b < a) →
      ∀ k ∈ l, after < k → k ∈ l.takeWhile (fun x => after < x) := by
  intro l
  induction l with
  | nil =>
    intro _ k hk
    exact absurd hk (List.not_mem_nil k)
  | cons h t ih =>
    intro hp k hk hak
    rw [List.takeWhile_cons]
    rcases List.mem_cons.mp hk with rfl | hkt
    · rw [if_pos (by simpa using hak)]
      exact List.mem_cons_self _ _
    · have hlt : k < h := (List.pairwise_cons.mp hp).1 k hkt
      have hah : after < h := lt_trans hak hlt
      rw [if_pos (by simpa using hah)]
      exact List.mem_cons_of_mem _ (ih (List.pairwise_cons.mp hp).2 k hkt hak)

/-- For a chain state whose `windowOrder` is strictly increasing and
contains every stored key, `dropWindowHash after` removes every entry with
key above `after`. -/
lemma dropWindowHash_keys_le (s : ChainState)
    (hsorted : s.windowOrder.Pairwise (· < ·))
    (hsub : ∀ k ∈ mapKeys s.storedWindowHash, k ∈ s.windowOrder)
    (after : Nat) :
    ∀ k, after < k →
      mapLookup (dropWindowHash after s).storedWindowHash k = none := by
  intro k hak
  rw [mapLookup_eq_none_iff]
  show k ∉ mapKeys ((s.windowOrder.reverse.takeWhile (fun x => after < x)).foldl
    (fun m k => mapErase m k) s.storedWindowHash)
  rw [mapKeys_foldl_erase_mem]
  rintro ⟨hkm, hkd⟩
  apply hkd
  have hrev : s.windowOrder.reverse.Pairwise (fun a b => b < a) := by
    rw [List.pairwise_reverse]
    exact hsorted
  exact mem_takeWhile_of_sorted after _ hrev k
    (List.mem_reverse.mpr (hsub k hkm)) hak

/-- The statement of claim C2 for a resolver run: either the returned
value `a` satisfies the parent-hash match at height `a + 1` and every
stored entry above `a` has been dropped, or the returned value is
`max(cursor − hardFallbackBlocks, 0)` and the store has been trimmed to
keys at most that fallback. -/
def ReorgClaim (g : Nat → Block) (s : ChainState) : Prop :=
  (∃ a, (handleReorg g s).2 = a ∧
    (g (a + 1)).parentHash = (mapLookup s.storedWindowHash a).getD [] ∧
    ∀ k, a < k → mapLookup (handleReorg g s).1.storedWindowHash k = none) ∨
  ((handleReorg g s).2 = s.cursor - s.hardFallbackBlocks ∧
    ∀ k, s.cursor - s.hardFallbackBlocks < k →
      mapLookup (handleReorg g s).1.storedWindowHash k = none)

/-- A chain state whose `windowOrder` is *not* sorted by block number:
`[10, 5]`, with both keys stored. -/
def c2BadState : ChainState :=
  { cursor := 5, windowOrder := [10, 5],
    storedWindowHash := [(10, ['x']), (5, ['y'])],
    storedWindowHashCap := 8, hardFallbackBlocks := 1000,
    topics := [], optsTopics := [], optsRangeSize := 1 }

/-- A header whose only relevant field is `parentHash`. -/
def c2Block (parentHash : Str) : Block :=
  { number := [], hash := [], parentHash := parentHash, timestamp := [] }

/-- An adapter for which the header at height 6 matches the stored hash at
key 5. -/
def c2BadGetBlock : Nat → Block :=
  fun n => if n = 6 then c2Block ['y'] else c2Block []

/-- C2 counterexample: on a chain state whose `windowOrder` is not sorted
by block number (`[10, 5]`), `handleReorg` finds the ancestor `5` (the
parent-hash of the header at height 6 matches the stored hash at key 5),
but `dropWindowHash` only strips a suffix of `windowOrder`, so the entry
at key `10 > 5` survives: the claim, quantified over every chain state,
is false. -/
theorem handleReorg_counterexample :
    0 < c2BadState.optsRangeSize ∧ ¬ ReorgClaim c2BadGetBlock c2BadState := by
  refine ⟨by decide, ?_⟩
  rintro (⟨a, ha, hm, hdrop⟩ | ⟨hfb, hdrop⟩)
  · have h5 : (handleReorg c2BadGetBlock c2BadState).2 = 5 := by decide
    rw [h5] at ha
    subst ha
    have h10 := hdrop 10 (by omega)
    have : mapLookup (handleReorg c2BadGetBlock c2BadState).1.storedWindowHash 10 =
        some ['x'] := by decide
    rw [this] at h10
    exact absurd h10 (by simp)
  · exact absurd hfb (by decide)

/-- C2 (amended): for every chain state with `rangeSize > 0` whose
`windowOrder` is strictly increasing and contains every key of the
window-hash store, an uncancelled `handleReorg` run with all header
fetches succeeding returns either an `a` whose header at `a + 1` has
`parentHash` equal to the stored window hash at key `a`, with every stored
entry above `a` dropped, or the value `max(cursor − hardFallbackBlocks,
0)` after trimming the store to keys at most that fallback. -/
theorem handleReorg_spec (g : Nat → Block) (s : ChainState)
    (hrs : 0 < s.optsRangeSize)
    (hsorted : s.windowOrder.Pairwise (· < ·))
    (hsub : ∀ k ∈ mapKeys s.storedWindowHash, k ∈ s.windowOrder) :
    ReorgClaim g s := by
  rcases reorgLoop_cases g s s.storedWindowHashCap s.cursor with
    ⟨a, heq, hmatch⟩ | heq
  · left
    refine ⟨a, ?_, hmatch, ?_⟩
    · rw [handleReorg, heq]
    · intro k hk
      rw [handleReorg, heq]
      exact dropWindowHash_keys_le s hsorted hsub a k hk
  · right
    constructor
    · rw [handleReorg, heq]
      exact hardFallbackValue_eq s
    · intro k hk
      rw [handleReorg, heq]
      exact dropWindowHash_keys_le s hsorted hsub (hardFallbackValue s) k
        (by rw [hardFallbackValue_eq]; exact hk)

/-- A well-formed (sorted) chain state and adapter witnessing C2: the
ancestor 10 is found at once. -/
def c2GoodState : ChainState :=
  { cursor := 10, windowOrder := [5, 10],
    storedWindowHash := [(5, ['y']), (10, ['x'])],
    storedWindowHashCap := 8, hardFallbackBlocks := 1000,
    topics := [], optsTopics := [], optsRangeSize := 1 }

/-- An adapter for which the header at height 11 matches the stored hash
at key 10. -/
def c2GoodGetBlock : Nat → Block :=
  fun n => if n = 11 then c2Block ['x'] else c2Block []

/-- Witness for C2 (amended) at a concrete sorted state. -/
theorem handleReorg_spec_witness :
    0 < c2GoodState.optsRangeSize ∧
      c2GoodState.windowOrder.Pairwise (· < ·) ∧
      (∀ k ∈ mapKeys c2GoodState.storedWindowHash, k ∈ c2GoodState.windowOrder) ∧
      ReorgClaim c2GoodGetBlock c2GoodState :=
  ⟨by decide, by decide, by decide,
    handleReorg_spec c2GoodGetBlock c2GoodState (by decide) (by decide) (by decide)⟩


/-! ## Arbiter commit loop (processor.go `runChain`, lines 294–364)

One iteration of the in-order commit loop

```go
for end, ok2 := window[next]; ok2; end, ok2 = window[next] {
    block, err = GetBlock(next)            // retryable; modelled as succeeding
    if next == 0 { break }
    parent, ok := chain.storedWindowHash[next - 1]
    if ok && block.ParentHash != parent {
        rpcCancel()
        ancestor := p.handleReorg(ctx, chain)
        chain.cursor = ancestor
        return
    } else {
        for _, l := range windowLogs[next] { logsCh <- l }
        delete(windowLogs, next); delete(window, next)
        chain.cursor = end; next = end + 1
    }
    block, err = GetBlock(end)
    p.storeWindowHash(end, block.Hash, chain)
}
```
-/

/-- The arbiter's local state: the pending window map `from → to`, the
pending logs, and the next height to commit. -/
structure ArbState where
  chain : ChainState
  window : AList64 Nat
  windowLogs : AList64 (List Log)
  next : Nat
deriving DecidableEq

/-- The outcome of one iteration of the commit loop. -/
inductive StepOut where
  /-- `window[next]` is absent: the loop condition fails. -/
  | noJob
  /-- `next == 0`: the loop is exited by `break`. -/
  | genesisBreak
  /-- parent-hash mismatch: the reorg resolver ran and the arbiter exits. -/
  | reorg (ancestor : Nat)
  /-- the window was committed and its logs emitted. -/
  | committed (emitted : List Log)
deriving DecidableEq

/-- The commit path of one arbiter iteration: emit the pending logs for
`next`, delete the window, advance the cursor to `e`, and store the hash
of the end block. -/
def arbiterCommit (g : Nat → Block) (st : ArbState) (e : Nat) : ArbState × StepOut :=
  let emitted := (mapLookup st.windowLogs st.next).getD []
  let windowLogs' := mapErase st.windowLogs st.next
  let window' := mapErase st.window st.next
  let chain' := { st.chain with cursor := e }
  let chain'' := storeWindowHash e (g e).hash chain'
  (⟨chain'', window', windowLogs', e + 1⟩, .committed emitted)

/-- One iteration of the arbiter's commit loop. -/
def arbiterStep (g : Nat → Block) (st : ArbState) : ArbState × StepOut :=
  match mapLookup st.window st.next with
  | none => (st, .noJob)
  | some e =>
    let block := g st.next
    if st.next = 0 then (st, .genesisBreak)
    else
      match mapLookup st.chain.storedWindowHash (st.next - 1) with
      | some parent =>
        if block.parentHash ≠ parent then
          let r := handleReorg g st.chain
          ({ st with chain := { r.1 with cursor := r.2 } }, .reorg r.2)
        else arbiterCommit g st e
      | none => arbiterCommit g st e

/-- A log with a recognizable address, pending for the genesis window. -/
def c7Log : Log :=
  { address := ['a'], topics := [], data := [], blockNumber := [],
    transactionHash := [], transactionIndex := [], blockHash := [],
    logIndex := [], removed := false }

/-- A constant block header. -/
def c7Block : Block := { number := [], hash := [], parentHash := [], timestamp := [] }

/-- An adapter returning the same header everywhere. -/
def c7GetBlock : Nat → Block := fun _ => c7Block

/-- The chain state of the genesis counterexample. -/
def c7Chain : ChainState :=
  { cursor := 0, windowOrder := [], storedWindowHash := [],
    storedWindowHashCap := 8, hardFallbackBlocks := 1000, topics := [],
    optsTopics := [], optsRangeSize := 10 }

/-- An arbiter state whose next window to commit is `[0, 9]` (genesis). -/
def c7State : ArbState :=
  { chain := c7Chain,
    window := [(0, 9)],
    windowLogs := [(0, [c7Log])],
    next := 0 }

/-- C7 counterexample: with the pending window `[0, 9]` at `next = 0`, the
loop body executes `break` before the parent check: the window is *not*
committed — no logs are emitted, the cursor stays 0, and no end-block hash
is stored — contradicting the claim that the genesis window is committed. -/
theorem arbiterStep_genesis_counterexample :
    c7State.next = 0 ∧ mapLookup c7State.window 0 = some 9 ∧
      arbiterStep c7GetBlock c7State = (c7State, .genesisBreak) ∧
      ¬ ((arbiterStep c7GetBlock c7State).2 = .committed [c7Log] ∨
        (arbiterStep c7GetBlock c7State).1.chain.cursor = 9 ∨
        (mapLookup (arbiterStep c7GetBlock c7State).1.chain.storedWindowHash 9).isSome = true) := by
  decide

/-- C7 (amended): whenever the next window to commit starts at height
`next == 0` and a window for it is pending, the arbiter skips the
parent-hash check and exits the commit loop without committing: the state
is unchanged (no logs emitted, cursor not advanced, no hash stored) and
the outcome is the `break`. -/
theorem arbiterStep_genesis (g : Nat → Block) (st : ArbState)
    (h0 : st.next = 0) (hw : (mapLookup st.window st.next).isSome) :
    arbiterStep g st = (st, .genesisBreak) := by
  unfold arbiterStep
  rcases hsome : mapLookup st.window st.next with _ | e
  · rw [hsome] at hw
    simp at hw
  · simp [h0]

/-- Witness for C7 (amended) at the concrete genesis state. -/
theorem arbiterStep_genesis_witness :
    c7State.next = 0 ∧ (mapLookup c7State.window c7State.next).isSome = true ∧
      arbiterStep c7GetBlock c7State = (c7State, .genesisBreak) :=
  ⟨rfl, by decide, arbiterStep_genesis c7GetBlock c7State rfl (by decide)⟩


/-! ## Receipts fetch mode (processor.go `fetchLogsFromReceipts`,
`matchesTopicFilter`, lines 464–508) -/

/-- `matchesTopicFilter`: true if no topics are configured
(`len(chain.opts.Topics) == 0`); false if the log has no topics; otherwise
true iff the first topic, when it is a string, equals some canonicalized
chain topic. -/
def matchesTopicFilter (log : Log) (chain : ChainState) : Bool :=
  if chain.optsTopics.length = 0 then true
  else
    match log.topics with
    | [] => false
    | t0 :: _ =>
      chain.topics.any (fun filterTopic =>
        match t0 with
        | .str s => s == filterTopic
        | .nonString => false)

/-- The block loop of `fetchLogsFromReceipts`, ascending from `b` to
`«to»`: fetch the block's receipts, flatten their logs, keep the matching
ones. -/
def fetchReceiptsFrom (getReceipts : Nat → List Receipt) (chain : ChainState)
    («to» : Nat) (b : Nat) : List Log :=
  if b ≤ «to» then
    ((getReceipts b).flatMap
      (fun r => r.logs.filter (fun l => matchesTopicFilter l chain))) ++
      fetchReceiptsFrom getReceipts chain «to» (b + 1)
  else []
termination_by «to» + 1 - b

/-- `fetchLogsFromReceipts` (uncancelled, every `GetBlockReceipts`
succeeding). -/
def fetchLogsFromReceipts (getReceipts : Nat → List Receipt)
    (chain : ChainState) («from» «to» : Nat) : List Log :=
  fetchReceiptsFrom getReceipts chain «to» «from»

/-- The retention predicate of claim C8: a log is retained iff the
configured topic list is empty, or its first topic, read as a string,
equals some entry of the canonicalized chain topic list. -/
def retainedSpec (chain : ChainState) (log : Log) : Bool :=
  chain.optsTopics.isEmpty ||
    (match log.topics.head? with
     | some (.str s) => chain.topics.any (fun ft => s == ft)
     | _ => false)

lemma matchesTopicFilter_eq_retainedSpec (log : Log) (chain : ChainState) :
    matchesTopicFilter log chain = retainedSpec chain log := by
  rw [matchesTopicFilter, retainedSpec]
  by_cases h : chain.optsTopics.length = 0
  · rw [if_pos h, List.length_eq_zero.mp h]
    rfl
  · rw [if_neg h]
    have hne : chain.optsTopics.isEmpty = false := by
      rcases hopt : chain.optsTopics with _ | ⟨x, xs⟩
      · rw [hopt] at h
        simp at h
      · rfl
    rw [hne, Bool.false_or]
    rcases log.topics with _ | ⟨t0, rest⟩
    · rfl
    · rcases t0 with s | _
      · rfl
      · show (chain.topics.any fun filterTopic => false) = false
        rw [List.any_eq_false]
        intro x _
        simp

lemma filter_flatMap {α β : Type} (l : List α) (f : α → List β) (p : β → Bool) :
    (l.flatMap f).filter p = l.flatMap (fun a => (f a).filter p) := by
  induction l with
  | nil => rfl
  | cons a l ih =>
    simp only [List.flatMap_cons, List.filter_append, ih]

/-- C8: in receipts mode, the fetched logs for `[from, to]` are exactly
the logs of all receipts of the blocks `from, from+1, …, to` in ascending
order, filtered by the retention predicate: keep a log iff the configured
topic list is empty or the log's first topic (read as a string) equals
some canonicalized chain topic. -/
theorem fetchLogsFromReceipts_spec (getReceipts : Nat → List Receipt)
    (chain : ChainState) (f t : Nat) :
    fetchLogsFromReceipts getReceipts chain f t =
      ((List.range' f (t + 1 - f)).flatMap
        (fun b => (getReceipts b).flatMap (fun r => r.logs))).filter
        (retainedSpec chain) := by
  rw [fetchLogsFromReceipts]
  induction f using fetchReceiptsFrom.induct getReceipts chain t with
  | case1 b hb ih =>
    rw [fetchReceiptsFrom, if_pos hb]
    have hcount : t + 1 - b = (t - b) + 1 := by omega
    rw [hcount, List.range'_succ, List.flatMap_cons, List.filter_append]
    have hcount2 : t + 1 - (b + 1) = t - b := by omega
    rw [hcount2] at ih
    rw [ih]
    congr 1
    rw [filter_flatMap]
    simp only [matchesTopicFilter_eq_retainedSpec]
  | case2 b hb =>
    rw [fetchReceiptsFrom, if_neg hb]
    have hcount : t + 1 - b = 0 := by omega
    rw [hcount]
    rfl


/-! ## AddChain (processor.go `AddChain`, lines 60–104)

```go
rs := uint64(opts.RangeSize)         // assume >0
base := (opts.ReorgLookbackBlocks + rs - 1) / rs // ceil
cap := base + 1
if cap < 8 { cap = 8 }
if cap > 256 { cap = 256 }
```
-/

/-- The per-chain configuration (processor `Options`); fields not read by
the verified code paths (`FetchMode`, `RetryConfig` normalization,
concurrency hints) are omitted. -/
structure Options where
  batchSize : Nat
  rangeSize : Nat
  decoderConcurrency : Nat
  fetcherConcurrency : Nat
  startBlock : Nat
  endBlock : Nat
  confirmation : Nat
  logsBufferSize : Nat
  reorgLookbackBlocks : Nat
  topics : List Str
deriving DecidableEq

/-- The chain state built by `AddChain`, parameterized by the Keccak-256
digest used for topic canonicalization. -/
def AddChainState (keccak256 : Str → List Nat) (opts : Options) : ChainState :=
  let rs := opts.rangeSize
  let base := (opts.reorgLookbackBlocks + rs - 1) / rs
  let cap0 := base + 1
  let cap1 := if cap0 < 8 then 8 else cap0
  let cap2 := if cap1 > 256 then 256 else cap1
  { cursor := opts.startBlock,
    windowOrder := [],
    storedWindowHash := [],
    storedWindowHashCap := cap2,
    hardFallbackBlocks := 1000,
    topics := ConvertToTopics keccak256 opts.topics,
    optsTopics := opts.topics,
    optsRangeSize := opts.rangeSize }

/-- C6: with `RangeSize > 0`, `AddChain` sets the window-hash capacity to
`clamp(ceil(reorgLookbackBlocks / rangeSize) + 1, 8, 256)`: the computed
quotient `q = (L + rs − 1) / rs` is exactly the ceiling of `L / rs`
(characterized by `L ≤ rs·q < L + rs`), and the capacity is
`min 256 (max 8 (q + 1))`. -/
theorem addChain_windowCap (keccak256 : Str → List Nat) (opts : Options)
    (hrs : 0 < opts.rangeSize) :
    (AddChainState keccak256 opts).storedWindowHashCap =
      min 256 (max 8
        ((opts.reorgLookbackBlocks + opts.rangeSize - 1) / opts.rangeSize + 1)) ∧
    opts.reorgLookbackBlocks ≤
      opts.rangeSize *
        ((opts.reorgLookbackBlocks + opts.rangeSize - 1) / opts.rangeSize) ∧
    opts.rangeSize *
        ((opts.reorgLookbackBlocks + opts.rangeSize - 1) / opts.rangeSize) <
      opts.reorgLookbackBlocks + opts.rangeSize := by
  refine ⟨?_, ?_, ?_⟩
  · show (if (if ((opts.reorgLookbackBlocks + opts.rangeSize - 1) / opts.rangeSize + 1) < 8
          then (8 : Nat)
          else (opts.reorgLookbackBlocks + opts.rangeSize - 1) / opts.rangeSize + 1) > 256
        then (256 : Nat)
        else (if ((opts.reorgLookbackBlocks + opts.rangeSize - 1) / opts.rangeSize + 1) < 8
          then (8 : Nat)
          else (opts.reorgLookbackBlocks + opts.rangeSize - 1) / opts.rangeSize + 1)) =
      min 256 (max 8
        ((opts.reorgLookbackBlocks + opts.rangeSize - 1) / opts.rangeSize + 1))
    split_ifs <;> omega
  · have hdm := Nat.div_add_mod (opts.reorgLookbackBlocks + opts.rangeSize - 1)
      opts.rangeSize
    have hm := Nat.mod_lt (opts.reorgLookbackBlocks + opts.rangeSize - 1) hrs
    omega
  · have hdm := Nat.div_add_mod (opts.reorgLookbackBlocks + opts.rangeSize - 1)
      opts.rangeSize
    have hm := Nat.mod_lt (opts.reorgLookbackBlocks + opts.rangeSize - 1) hrs
    omega

/-- Concrete options for the C6 witness: lookback 100 over ranges of 10
gives capacity `ceil(100/10) + 1 = 11`, inside `[8, 256]`. -/
def c6Opts : Options :=
  { batchSize := 0, rangeSize := 10, decoderConcurrency := 0,
    fetcherConcurrency := 4, startBlock := 0, endBlock := 0,
    confirmation := 0, logsBufferSize := 0, reorgLookbackBlocks := 100,
    topics := [] }

/-- Witness for C6 at `c6Opts`. -/
theorem addChain_windowCap_witness :
    0 < c6Opts.rangeSize ∧
      ((AddChainState (fun _ => List.replicate 32 0) c6Opts).storedWindowHashCap =
        min 256 (max 8
          ((c6Opts.reorgLookbackBlocks + c6Opts.rangeSize - 1) / c6Opts.rangeSize + 1)) ∧
      c6Opts.reorgLookbackBlocks ≤
        c6Opts.rangeSize *
          ((c6Opts.reorgLookbackBlocks + c6Opts.rangeSize - 1) / c6Opts.rangeSize) ∧
      c6Opts.rangeSize *
          ((c6Opts.reorgLookbackBlocks + c6Opts.rangeSize - 1) / c6Opts.rangeSize) <
        c6Opts.reorgLookbackBlocks + c6Opts.rangeSize) :=
  ⟨by decide, addChain_windowCap (fun _ => List.replicate 32 0) c6Opts (by decide)⟩


/-! ## Retry executor (rpc `RetryWithBackoff`)

```go
for attempt := 0; attempt < config.MaxAttempts; attempt++ {
    lastErr = fn()
    if lastErr == nil { return nil }
    if !errors.IsRetryableError(lastErr) {
        return fmt.Errorf("non-retryable error: %w", lastErr)
    }
    if attempt == config.MaxAttempts-1 { break }
    // compute wait (backoff + jitter), sleep, update backoff
}
return fmt.Errorf("max retry attempts (%d) exceeded: %w", config.MaxAttempts, lastErr)
```

The operation is modelled as the sequence of outcomes of its invocations
(`fn i` is what the `i`-th call returns, `none` for success). Wall-clock
durations (backoff growth, jitter, context cancellation during the sleep)
are not modelled; the executor here returns, besides the wrapped result,
the number of invocations and the number of sleeps it performed. -/

/-- The possible returns of `RetryWithBackoff`: success, a wrapped
non-retryable error, or the max-attempts-exceeded error wrapping the last
error (`none` only in the degenerate `MaxAttempts ≤ 0` case). -/
inductive RetryResult where
  | ok
  | nonRetryable (e : IndexerError)
  | exhausted (maxAttempts : Nat) (last : Option IndexerError)
deriving DecidableEq

/-- The retry loop from attempt index `attempt`; returns the result, the
number of invocations, and the number of sleeps from this point on. -/
def retryAux (fn : Nat → Option IndexerError) (maxAttempts : Nat)
    (attempt : Nat) : RetryResult × Nat × Nat :=
  if h : attempt < maxAttempts then
    match fn attempt with
    | none => (.ok, 1, 0)
    | some e =>
      if IsRetryableError e then
        if attempt = maxAttempts - 1 then (.exhausted maxAttempts (some e), 1, 0)
        else
          let r := retryAux fn maxAttempts (attempt + 1)
          (r.1, r.2.1 + 1, r.2.2 + 1)
      else (.nonRetryable e, 1, 0)
  else (.exhausted maxAttempts none, 0, 0)
termination_by maxAttempts - attempt
decreasing_by
  omega

/-- `RetryWithBackoff`, keeping only the control flow of the Go function. -/
def RetryWithBackoff (fn : Nat → Option IndexerError) (maxAttempts : Nat) :
    RetryResult × Nat × Nat :=
  retryAux fn maxAttempts 0

lemma retryAux_stop {fn : Nat → Option IndexerError} {m a : Nat} (h : ¬a < m) :
    retryAux fn m a = (.exhausted m none, 0, 0) := by
  rw [retryAux]
  exact dif_neg h

lemma retryAux_none {fn : Nat → Option IndexerError} {m a : Nat}
    (h : a < m) (hf : fn a = none) : retryAux fn m a = (.ok, 1, 0) := by
  rw [retryAux, dif_pos h, hf]

lemma retryAux_nonretry {fn : Nat → Option IndexerError} {m a : Nat}
    {e : IndexerError} (h : a < m) (hf : fn a = some e)
    (hr : ¬IsRetryableError e = true) :
    retryAux fn m a = (.nonRetryable e, 1, 0) := by
  rw [retryAux, dif_pos h, hf]
  simp only [if_neg hr]

lemma retryAux_last {fn : Nat → Option IndexerError} {m a : Nat}
    {e : IndexerError} (h : a < m) (hf : fn a = some e)
    (hr : IsRetryableError e = true) (hl : a = m - 1) :
    retryAux fn m a = (.exhausted m (some e), 1, 0) := by
  rw [retryAux, dif_pos h, hf]
  simp only [if_pos hr, if_pos hl]

lemma retryAux_step {fn : Nat → Option IndexerError} {m a : Nat}
    {e : IndexerError} (h : a < m) (hf : fn a = some e)
    (hr : IsRetryableError e = true) (hl : ¬a = m - 1) :
    retryAux fn m a = ((retryAux fn m (a + 1)).1,
      (retryAux fn m (a + 1)).2.1 + 1, (retryAux fn m (a + 1)).2.2 + 1) := by
  rw [retryAux, dif_pos h, hf]
  simp only [if_pos hr, if_neg hl]

lemma retryAux_calls_le (fn : Nat → Option IndexerError) (m : Nat) :
    ∀ a, (retryAux fn m a).2.1 ≤ m - a := by
  have main : ∀ n a, m - a ≤ n → (retryAux fn m a).2.1 ≤ m - a := by
    intro n
    induction n with
    | zero =>
      intro a ha
      rw [retryAux_stop (by omega)]
      simp
    | succ n ih =>
      intro a ha
      by_cases h : a < m
      · rcases hf : fn a with _ | e
        · rw [retryAux_none h hf]
          simp only
          omega
        · by_cases hr : IsRetryableError e = true
          · by_cases hl : a = m - 1
            · rw [retryAux_last h hf hr hl]
              simp only
              omega
            · rw [retryAux_step h hf hr hl]
              have := ih (a + 1) (by omega)
              simp only at this ⊢
              omega
          · rw [retryAux_nonretry h hf hr]
            simp only
            omega
      · rw [retryAux_stop h]
        simp
  exact fun a => main (m - a) a (le_refl _)

/-- Skipping a prefix of retryable failures just adds one call and one
sleep per skipped attempt. -/
lemma retryAux_skip (fn : Nat → Option IndexerError) (m : Nat) :
    ∀ a i, a ≤ i → i < m →
      (∀ j, a ≤ j → j < i → ∃ e, fn j = some e ∧ IsRetryableError e = true) →
      retryAux fn m a = ((retryAux fn m i).1,
        (retryAux fn m i).2.1 + (i - a), (retryAux fn m i).2.2 + (i - a)) := by
  have main : ∀ d a i, i - a = d → a ≤ i → i < m →
      (∀ j, a ≤ j → j < i → ∃ e, fn j = some e ∧ IsRetryableError e = true) →
      retryAux fn m a = ((retryAux fn m i).1,
        (retryAux fn m i).2.1 + (i - a), (retryAux fn m i).2.2 + (i - a)) := by
    intro d
    induction d with
    | zero =>
      intro a i hd hai him hall
      have : a = i := by omega
      subst this
      simp
    | succ n ih =>
      intro a i hd hai him hall
      have hlt : a < i := by omega
      obtain ⟨e, hfa, hre⟩ := hall a (le_refl a) hlt
      have hne : ¬a = m - 1 := by omega
      rw [retryAux_step (by omega) hfa hre hne]
      have hrec := ih (a + 1) i (by omega) (by omega) him
        (fun j hj1 hj2 => hall j (by omega) hj2)
      rw [hrec]
      simp only [Prod.mk.injEq]
      refine ⟨trivial, by omega, by omega⟩
  exact fun a i hai him hall => main (i - a) a i rfl hai him hall

/-- The statement of claim C5 for `maxAttempts = m`: the operation is
invoked at most `m` times; the first `nil` return (after only retryable
failures) yields `ok` with `i + 1` invocations and `i` sleeps; a
non-retryable error at attempt `i` returns immediately — `i + 1`
invocations, no further sleep; if all `m` attempts fail retryably, the
result is the max-attempts error wrapping the last error, with exactly
`m` invocations and `m − 1` sleeps (no sleep after the final attempt). -/
def RetryClaim (fn : Nat → Option IndexerError) (m : Nat) : Prop :=
  ((RetryWithBackoff fn m).2.1 ≤ m) ∧
  (∀ i, i < m → fn i = none →
    (∀ j, j < i → ∃ e, fn j = some e ∧ IsRetryableError e = true) →
    RetryWithBackoff fn m = (.ok, i + 1, i)) ∧
  (∀ i e, i < m → fn i = some e → ¬IsRetryableError e = true →
    (∀ j, j < i → ∃ e', fn j = some e' ∧ IsRetryableError e' = true) →
    RetryWithBackoff fn m = (.nonRetryable e, i + 1, i)) ∧
  ((∀ j, j < m → ∃ e, fn j = some e ∧ IsRetryableError e = true) →
    ∃ e, fn (m - 1) = some e ∧
      RetryWithBackoff fn m = (.exhausted m (some e), m, m - 1))

/-- C5: for every retry config with `MaxAttempts ≥ 1` and every operation,
`RetryWithBackoff` satisfies `RetryClaim`. -/
theorem retryWithBackoff_spec (fn : Nat → Option IndexerError) (m : Nat)
    (hm : 1 ≤ m) : RetryClaim fn m := by
  refine ⟨?_, ?_, ?_, ?_⟩
  · have := retryAux_calls_le fn m 0
    simpa [RetryWithBackoff] using this
  · intro i hi hfi hall
    rw [RetryWithBackoff, retryAux_skip fn m 0 i (Nat.zero_le i) hi
      (fun j _ hj => hall j hj), retryAux_none hi hfi]
    simp only [Prod.mk.injEq]
    refine ⟨trivial, by omega, by omega⟩
  · intro i e hi hfi hre hall
    rw [RetryWithBackoff, retryAux_skip fn m 0 i (Nat.zero_le i) hi
      (fun j _ hj => hall j hj), retryAux_nonretry hi hfi hre]
    simp only [Prod.mk.injEq]
    refine ⟨trivial, by omega, by omega⟩
  · intro hall
    obtain ⟨e, hfe, hre⟩ := hall (m - 1) (by omega)
    refine ⟨e, hfe, ?_⟩
    rw [RetryWithBackoff, retryAux_skip fn m 0 (m - 1) (Nat.zero_le _) (by omega)
      (fun j _ hj => hall j (by omega)),
      retryAux_last (by omega) hfe hre rfl]
    simp only [Prod.mk.injEq]
    refine ⟨trivial, by omega, by omega⟩

/-- The operation of the C5 witness: a retryable RPC error on the first
invocation, success on the second. -/
def c5Fn : Nat → Option IndexerError :=
  fun n => if n = 0 then some (.rpcErr (-32000) []) else none

/-- Witness for C5: `MaxAttempts = 3` with `c5Fn`. -/
theorem retryWithBackoff_spec_witness : 1 ≤ 3 ∧ RetryClaim c5Fn 3 :=
  ⟨by decide, retryWithBackoff_spec c5Fn 3 (by decide)⟩

end Indexer
